import Mathlib

/-!
Verification of the classical shell of the Shor factorization simulator
(vibeSimulateShor): a shallow embedding of src/shor/classical.py,
src/shor/utils.py, the classical control paths of src/shor/quantum.py and
the orchestrator of src/main.py, together with theorems settling the
specification claims.

The measured phase of the simulated quantum circuit is the only
nondeterminism of the program; it is modelled as an explicit input in
[0,1).  Loops are embedded with an explicit fuel argument so that every
definition is executable by kernel reduction; each wrapper supplies fuel
strictly larger than the number of iterations the Python loop performs, so
the fuel-exhaustion branch is never taken (this is proved where a theorem
depends on it).
-/

namespace VibeShor

/-- Euclidean gcd loop from src/shor/classical.py (gcd): while b != 0:
    a, b = b, a % b.  Fuel decreases once per iteration; b strictly
    decreases, so fuel b + 1 is always enough. -/
def gcdLoop : ℕ → ℕ → ℕ → ℕ
  | 0, a, _ => a
  | fuel + 1, a, b => if b = 0 then a else gcdLoop fuel b (a % b)

/-- gcd from src/shor/classical.py. -/
def gcd (a b : ℕ) : ℕ := gcdLoop (b + 1) a b

/-- Loop of modexp from src/shor/classical.py: while b > 0, multiply into the
    result when the low bit is set, square a, halve b.  The exponent b
    strictly decreases, so fuel b.toNat + 1 is always enough. -/
def modexpLoop (m : ℤ) : ℕ → ℤ → ℤ → ℤ → ℤ
  | 0, result, _, _ => result
  | fuel + 1, result, a, b =>
    if 0 < b then
      modexpLoop m fuel (if b % 2 = 1 then result * a % m else result) (a * a % m) (b / 2)
    else result

/-- modexp from src/shor/classical.py (exponentiation by squaring):
    result = 1; a = a % m; then the squaring loop. -/
def modexp (a b m : ℤ) : ℤ := modexpLoop m (b.toNat + 1) 1 (a % m) b

/-- Trial-division loop of is_prime from src/shor/classical.py: while
    i * i <= n, reject if i or i + 2 divides n, else i += 6.  The loop runs
    at most n/6 + 1 times, so fuel n is ample for the wrapper below. -/
def isPrimeLoop (n : ℕ) : ℕ → ℕ → Bool
  | 0, _ => true
  | fuel + 1, i =>
    if i * i ≤ n then
      if n % i = 0 || n % (i + 2) = 0 then false
      else isPrimeLoop n fuel (i + 6)
    else true

/-- is_prime from src/shor/classical.py. -/
def is_prime (n : ℕ) : Bool :=
  if n ≤ 1 then false
  else if n ≤ 3 then true
  else if n % 2 = 0 || n % 3 = 0 then false
  else isPrimeLoop n n 5

/-- Brute-force order-search loop of quantum_order_finding
    (src/shor/quantum.py): r = 1; while pow(a, r, N) != 1 and r < N: r += 1.
    At most N - r iterations remain from counter value r, so fuel N is
    enough for the wrapper starting at r = 1. -/
def bruteOrderLoop (a N : ℕ) : ℕ → ℕ → ℕ
  | 0, r => r
  | fuel + 1, r => if a ^ r % N ≠ 1 ∧ r < N then bruteOrderLoop a N fuel (r + 1) else r

/-- Classical brute-force fallback of quantum_order_finding
    (src/shor/quantum.py): after the loop, None if r == N, else r. -/
def bruteOrder (a N : ℕ) : Option ℕ :=
  if bruteOrderLoop a N N 1 = N then none else some (bruteOrderLoop a N N 1)

/-- Python round for rational arguments: nearest integer, ties to even. -/
def pyRound (x : ℚ) : ℤ :=
  if x - ⌊x⌋ < 1/2 then ⌊x⌋
  else if (1 : ℚ)/2 < x - ⌊x⌋ then ⌊x⌋ + 1
  else if ⌊x⌋ % 2 = 0 then ⌊x⌋ else ⌊x⌋ + 1

/-- Loop of Fraction.limit_denominator (CPython fractions.py) for the
    non-negative fractions this program feeds it: (p0, q0, p1, q1) is the
    continued-fraction convergent state and n/d the remaining fraction; the
    loop breaks when the next convergent denominator q0 + (n/d) * q1 would
    exceed the bound.  d strictly decreases, so fuel d + 1 is always
    enough; on exhaustion the current state is returned, as on break. -/
def limitDenLoop (maxd : ℕ) : ℕ → ℕ × ℕ × ℕ × ℕ → ℕ → ℕ → ℕ × ℕ × ℕ × ℕ
  | 0, s, _, _ => s
  | fuel + 1, (p0, q0, p1, q1), n, d =>
    if d = 0 then (p0, q0, p1, q1)
    else
      if maxd < q0 + n / d * q1 then (p0, q0, p1, q1)
      else limitDenLoop maxd fuel (p1, q1, p0 + n / d * p1, q0 + n / d * q1) d (n % d)

/-- Fraction(x).limit_denominator(maxd) of CPython for non-negative x: if the
    denominator already fits the bound the fraction itself is returned, else
    the closer to x of the final convergent bound2 and the best
    semiconvergent bound1, ties toward bound2.  CPython raises for
    maxd < 1; the program always passes a bound of at least 1. -/
def limit_denominator (x : ℚ) (maxd : ℕ) : ℚ :=
  if x.den ≤ maxd then x
  else
    let s := limitDenLoop maxd (x.den + 1) (0, 1, 1, 0) x.num.toNat x.den
    let k := (maxd - s.2.1) / s.2.2.2
    let bound1 : ℚ := ((s.1 + k * s.2.2.1 : ℕ) : ℚ) / ((s.2.1 + k * s.2.2.2 : ℕ) : ℚ)
    let bound2 : ℚ := ((s.2.2.1 : ℕ) : ℚ) / ((s.2.2.2 : ℕ) : ℚ)
    if |bound2 - x| ≤ |bound1 - x| then bound2 else bound1

/-- continued_fraction from src/shor/utils.py: numerator and denominator of
    the bounded-denominator rational approximation of x. -/
def continued_fraction (x : ℚ) (maxd : ℕ) : ℤ × ℕ :=
  ((limit_denominator x maxd).num, (limit_denominator x maxd).den)

/-- get_order_from_phase from src/shor/utils.py: accept the denominator as
    the order only if it is at least 2 and round(phase * denom) ^ denom
    mod N equals 1.  Python's three-argument pow raises for modulus 0; the
    program always calls this with N >= 2. -/
def get_order_from_phase (phase : ℚ) (N : ℕ) (maxd : ℕ) : Option ℕ :=
  let denom := (continued_fraction phase maxd).2
  if 2 ≤ denom ∧ pyRound (phase * denom) ^ denom % (N : ℤ) = 1 then some denom
  else none

/-- Smallest k with N <= 2 ^ k, computed by linear search; fuel N is ample
    since N <= 2 ^ N.  Equals np.ceil(np.log2(N)) for N >= 1 as computed in
    src/shor/quantum.py. -/
def clog2Loop (N : ℕ) : ℕ → ℕ → ℕ
  | 0, k => k
  | fuel + 1, k => if N ≤ 2 ^ k then k else clog2Loop N fuel (k + 1)

/-- ceil(log2 N) as used for the register size n in src/shor/quantum.py. -/
def ceilLog2 (N : ℕ) : ℕ := clog2Loop N N 0

/-- Raise condition of modular_exponentiation_gate (src/shor/quantum.py): the
    constructor raises ValueError when a is not coprime to N, or when the
    mapping x ↦ a ^ x mod N repeats a value on [0, 2 ^ n) and is therefore
    not a permutation. -/
def modexpGateRaises (a N n : ℕ) : Bool :=
  decide (gcd a N ≠ 1) ||
  decide (¬ ((List.range (2 ^ n)).map (fun x => a ^ x % N)).Nodup)

/-- quantum_order_finding from src/shor/quantum.py, with the phase measured
    from the simulated circuit supplied as an explicit input: classical
    brute force for N < 8 and N > 60; for N <= 15 the unitary-gate path,
    which falls back to brute force when the gate constructor raises;
    for 16 <= N <= 60 the quantum-arithmetic path.  Both circuit paths feed
    the measured phase through get_order_from_phase with the default bound
    1000. -/
def quantum_order_finding (a N : ℕ) (measuredPhase : ℚ) : Option ℕ :=
  if N < 8 then bruteOrder a N
  else if N ≤ 15 ∧ ceilLog2 N ≤ 4 then
    if modexpGateRaises a N (ceilLog2 N) then bruteOrder a N
    else get_order_from_phase measuredPhase N 1000
  else if N ≤ 60 then get_order_from_phase measuredPhase N 1000
  else bruteOrder a N

/-- Attempt loop of shor_factor (src/main.py).  att supplies, per attempt
    index i, the random base a drawn by randrange(2, N) and the phase the
    simulated circuit would measure on that attempt; rem is the number of
    attempts left (5 at the top level).  Returns the result together with
    the number of oracle invocations performed. -/
def shorAttempts (N : ℕ) (att : ℕ → ℕ × ℚ) : ℕ → ℕ → Option (ℕ × ℕ) × ℕ
  | _, 0 => (none, 0)
  | i, rem + 1 =>
    let a := (att i).1
    let d := gcd a N
    if 1 < d then (some (d, N / d), 0)
    else
      match quantum_order_finding a N (att i).2 with
      | none =>
        let p := shorAttempts N att (i + 1) rem
        (p.1, p.2 + 1)
      | some r =>
        if r % 2 ≠ 0 then
          let p := shorAttempts N att (i + 1) rem
          (p.1, p.2 + 1)
        else
          let x := a ^ (r / 2) % N
          if x = N - 1 ∨ x = 1 then
            let p := shorAttempts N att (i + 1) rem
            (p.1, p.2 + 1)
          else
            let f1 := gcd (x + 1) N
            let f2 := gcd (x - 1) N
            if 1 < f1 ∧ f1 < N then (some (f1, N / f1), 1)
            else if 1 < f2 ∧ f2 < N then (some (f2, N / f2), 1)
            else
              let p := shorAttempts N att (i + 1) rem
              (p.1, p.2 + 1)

/-- shor_factor from src/main.py, instrumented with the number of oracle
    invocations: the even shortcut, the primality check, then up to 5
    attempts. -/
def shor_factor_run (N : ℕ) (att : ℕ → ℕ × ℚ) : Option (ℕ × ℕ) × ℕ :=
  if N % 2 = 0 then (some (2, N / 2), 0)
  else if is_prime N then (none, 0)
  else shorAttempts N att 0 5

/-- Result of shor_factor from src/main.py. -/
def shor_factor (N : ℕ) (att : ℕ → ℕ × ℚ) : Option (ℕ × ℕ) := (shor_factor_run N att).1

/-- Modelled from the spec: continued-fraction coefficients of n/d produced
    by the Euclidean algorithm (the canonical expansion that section 4.2 of
    the spec calls "the continued-fraction expansion"). -/
def cfCoeffs : ℕ → ℕ → ℕ → List ℕ
  | 0, _, _ => []
  | fuel + 1, n, d => if d = 0 then [] else n / d :: cfCoeffs fuel d (n % d)

/-- Modelled from the spec: convergents from a coefficient list by the
    standard recurrence p_k = a_k * p_(k-1) + p_(k-2), seeded with the pairs
    (0, 1) and (1, 0). -/
def convergentsAux : List ℕ → ℕ × ℕ → ℕ × ℕ → List (ℕ × ℕ)
  | [], _, _ => []
  | a :: rest, pp, p =>
    (a * p.1 + pp.1, a * p.2 + pp.2) :: convergentsAux rest p (a * p.1 + pp.1, a * p.2 + pp.2)

/-- Modelled from the spec: the convergent of the continued-fraction
    expansion of x with the largest denominator not exceeding maxd (the
    truncation semantics claim C1 asserts for best_rational_approximation). -/
def specConvergent (x : ℚ) (maxd : ℕ) : Option (ℕ × ℕ) :=
  ((convergentsAux (cfCoeffs (x.den + 1) x.num.toNat x.den) (0, 1) (1, 0)).filter
    (fun pq => pq.2 ≤ maxd)).getLast?

section

attribute [local semireducible] Rat.mul Rat.add Rat.sub Rat.inv

/-- The fuel supplied by the gcd wrapper is always sufficient. -/
theorem gcdLoop_eq : ∀ (fuel : ℕ) (a b : ℕ), b < fuel → gcdLoop fuel a b = Nat.gcd a b := by
  intro fuel
  induction fuel with
  | zero => intro a b h; omega
  | succ fuel ih =>
    intro a b h
    rw [gcdLoop]
    split
    · simp [*]
    · rename_i hb
      have hlt : a % b < fuel := by
        have := Nat.mod_lt a (Nat.pos_of_ne_zero hb)
        omega
      rw [ih b (a % b) hlt]
      rw [Nat.gcd_comm b (a % b), ← Nat.gcd_rec b a, Nat.gcd_comm b a]

/-- The source gcd agrees with the mathematical gcd. -/
theorem gcd_eq (a b : ℕ) : gcd a b = Nat.gcd a b :=
  gcdLoop_eq (b + 1) a b (Nat.lt_succ_self b)

/-- The modexp loop is the identity once the exponent is not positive. -/
theorem modexpLoop_nonpos (m : ℤ) (fuel : ℕ) (result a b : ℤ) (hb : ¬ 0 < b) :
    modexpLoop m fuel result a b = result := by
  cases fuel with
  | zero => rfl
  | succ fuel => rw [modexpLoop, if_neg hb]

/-- Reducing the base modulo m does not change a modular power. -/
theorem int_pow_emod (y : ℤ) (k : ℕ) (m : ℤ) : (y % m) ^ k % m = y ^ k % m := by
  induction k with
  | zero => rfl
  | succ k ih =>
    rw [pow_succ, pow_succ, Int.mul_emod, ih, Int.emod_emod_of_dvd _ dvd_rfl,
      ← Int.mul_emod]

/-- Reducing the left factor modulo m does not change a modular product. -/
theorem int_emod_mul (x y m : ℤ) : x % m * y % m = x * y % m := by
  rw [Int.mul_emod, Int.emod_emod_of_dvd _ dvd_rfl, ← Int.mul_emod]

/-- Reducing the right factor modulo m does not change a modular product. -/
theorem int_mul_pow_emod (x y : ℤ) (k : ℕ) (m : ℤ) :
    x * (y % m) ^ k % m = x * y ^ k % m := by
  rw [Int.mul_emod, int_pow_emod, ← Int.mul_emod]

/-- Invariant of the squaring loop: with sufficient fuel and a positive
    exponent it computes result * a ^ b mod m. -/
theorem modexpLoop_spec (m : ℤ) :
    ∀ (fuel : ℕ) (result a b : ℤ), 0 < b → b.toNat < fuel →
      modexpLoop m fuel result a b = result * a ^ b.toNat % m := by
  intro fuel
  induction fuel with
  | zero => intro result a b hb hfuel; omega
  | succ fuel ih =>
    intro result a b hb hfuel
    rw [modexpLoop, if_pos hb]
    by_cases hb2 : b / 2 = 0
    · have hb1 : b = 1 := by omega
      subst hb1
      rw [modexpLoop_nonpos _ _ _ _ _ (by norm_num)]
      norm_num
    · have hpos : 0 < b / 2 := by omega
      have hfu : (b / 2).toNat < fuel := by omega
      rw [ih _ _ _ hpos hfu]
      have hk : b.toNat = 2 * (b / 2).toNat + (b % 2).toNat := by omega
      rcases Int.emod_two_eq_zero_or_one b with h2 | h2
      · rw [if_neg (by omega)]
        rw [int_mul_pow_emod]
        rw [hk, h2]
        norm_num [pow_mul, sq]
      · rw [if_pos h2]
        rw [int_mul_pow_emod, int_emod_mul]
        rw [hk, h2]
        have : a * (a * a) ^ (b / 2).toNat = a ^ (2 * (b / 2).toNat + 1) := by
          rw [← sq, ← pow_mul, pow_succ, mul_comm]
        rw [mul_assoc, this]
        norm_num

/-- C5 counterexample: at exponent 0 and modulus 1 modexp returns 1, while
    (a ** 0) mod 1 = 0, so the claimed identity fails at (a, e, m) = (3, 0, 1). -/
theorem modexp_zero_exp_mod_one_ne_pow :
    modexp 3 0 1 = 1 ∧ (3 : ℤ) ^ (0 : ℕ) % 1 = 0 ∧ (1 : ℤ) ≠ 0 := by decide

/-- C5 (amended): for every integer base a, exponent e >= 0 and modulus
    m >= 1, except at (e, m) = (0, 1) where modexp returns 1 instead of 0,
    modexp a e m equals (a ^ e) mod m; for exponent 0 and m >= 2 it returns
    1 = 1 mod m. -/
theorem modexp_eq_pow_emod (a : ℤ) (e : ℕ) (m : ℤ) (hm : 1 ≤ m) (he : e = 0 → 2 ≤ m) :
    modexp a (e : ℤ) m = a ^ e % m := by
  rcases Nat.eq_zero_or_pos e with h0 | hpos
  · subst h0
    rw [modexp, modexpLoop_nonpos _ _ _ _ _ (by norm_num)]
    rw [pow_zero, Int.emod_eq_of_lt (by norm_num) (by omega)]
  · have hbpos : (0 : ℤ) < (e : ℤ) := by exact_mod_cast hpos
    rw [modexp, modexpLoop_spec m _ 1 (a % m) (e : ℤ) hbpos (by omega)]
    rw [one_mul]
    have ht : ((e : ℤ)).toNat = e := Int.toNat_natCast e
    rw [ht, int_pow_emod]

/-- C5 witness: the amended theorem applied at a = 2, e = 10, m = 1000. -/
theorem modexp_eq_pow_emod_witness : modexp 2 10 1000 = 2 ^ (10 : ℕ) % 1000 :=
  modexp_eq_pow_emod 2 10 1000 (by norm_num) (by norm_num)

/-- C10: for every base a, modulus m >= 1 and negative exponent e, modexp
    returns 1 without error: the squaring loop is skipped entirely. -/
theorem modexp_neg_exponent_eq_one (a e m : ℤ) (hm : 1 ≤ m) (he : e < 0) :
    modexp a e m = 1 := by
  rw [modexp, modexpLoop_nonpos _ _ _ _ _ (by omega)]

/-- C10 witness: the theorem applied at a = 5, e = -2, m = 3. -/
theorem modexp_neg_exponent_eq_one_witness : modexp 5 (-2) 3 = 1 :=
  modexp_neg_exponent_eq_one 5 (-2) 3 (by norm_num) (by norm_num)

/-- Invariant of the brute-force search loop: with sufficient fuel, the
    returned counter is the first value at or after r at which the power is
    1 modulo N, capped at N. -/
theorem bruteOrderLoop_spec (a N : ℕ) :
    ∀ (fuel r : ℕ), 1 ≤ r → r ≤ N → N ≤ fuel + r →
      r ≤ bruteOrderLoop a N fuel r ∧ bruteOrderLoop a N fuel r ≤ N ∧
      (a ^ bruteOrderLoop a N fuel r % N = 1 ∨ bruteOrderLoop a N fuel r = N) ∧
      ∀ t, r ≤ t → t < bruteOrderLoop a N fuel r → a ^ t % N ≠ 1 := by
  intro fuel
  induction fuel with
  | zero =>
    intro r h1 h2 h3
    have : r = N := by omega
    rw [bruteOrderLoop]
    exact ⟨le_refl r, h2, Or.inr this, fun t ht1 ht2 => by omega⟩
  | succ fuel ih =>
    intro r h1 h2 h3
    rw [bruteOrderLoop]
    split
    · rename_i hcond
      obtain ⟨hne, hlt⟩ := hcond
      obtain ⟨i1, i2, i3, i4⟩ := ih (r + 1) (by omega) (by omega) (by omega)
      refine ⟨by omega, i2, i3, fun t ht1 ht2 => ?_⟩
      rcases Nat.eq_or_lt_of_le ht1 with he | hgt
      · rw [← he]; exact hne
      · exact i4 t (by omega) ht2
    · rename_i hcond
      push_neg at hcond
      refine ⟨le_refl r, h2, ?_, fun t ht1 ht2 => by omega⟩
      by_cases hone : a ^ r % N = 1
      · exact Or.inl hone
      · exact Or.inr (by omega)

/-- The properties of a successful brute-force search. -/
theorem bruteOrder_some (a N : ℕ) (hN : 1 ≤ N) (r : ℕ) (h : bruteOrder a N = some r) :
    1 ≤ r ∧ r < N ∧ a ^ r % N = 1 ∧ ∀ t, 1 ≤ t → t < r → a ^ t % N ≠ 1 := by
  rw [bruteOrder] at h
  split at h
  · exact absurd h (by simp)
  · rename_i hne
    obtain ⟨i1, i2, i3, i4⟩ := bruteOrderLoop_spec a N N 1 (le_refl 1) hN (by omega)
    obtain rfl : bruteOrderLoop a N N 1 = r := by
      injection h
    refine ⟨i1, by omega, ?_, i4⟩
    rcases i3 with h3 | h3
    · exact h3
    · exact absurd h3 hne

/-- C4: for every base a and modulus N handled by the brute-force fallback
    (taken by quantum_order_finding whenever N < 8 or N > 60), the search
    returns exactly the smallest positive r < N with a ^ r mod N = 1 when
    one exists, and the failure signal None otherwise. -/
theorem brute_force_order_correct (a N : ℕ) (hN : 2 ≤ N) :
    (∀ phase, N < 8 ∨ 60 < N → quantum_order_finding a N phase = bruteOrder a N) ∧
    (∀ r, bruteOrder a N = some r ↔
      (1 ≤ r ∧ r < N ∧ a ^ r % N = 1 ∧ ∀ t, 1 ≤ t → t < r → a ^ t % N ≠ 1)) ∧
    ((∀ t, 1 ≤ t → t < N → a ^ t % N ≠ 1) → bruteOrder a N = none) := by
  have hN1 : 1 ≤ N := by omega
  refine ⟨?_, ?_, ?_⟩
  · intro phase h
    rcases h with h8 | h60
    · rw [quantum_order_finding, if_pos h8]
    · rw [quantum_order_finding, if_neg (by omega)]
      rw [if_neg (fun hc => by omega)]
      rw [if_neg (by omega)]
  · intro r
    constructor
    · exact bruteOrder_some a N hN1 r
    · rintro ⟨h1, h2, h3, h4⟩
      obtain ⟨i1, i2, i3, i4⟩ := bruteOrderLoop_spec a N N 1 (le_refl 1) hN1 (by omega)
      have hsr : bruteOrderLoop a N N 1 = r := by
        rcases lt_trichotomy (bruteOrderLoop a N N 1) r with hlt | heq | hgt
        · exfalso
          rcases i3 with hi | hi
          · exact h4 _ i1 hlt hi
          · omega
        · exact heq
        · exact absurd h3 (i4 r h1 hgt)
      rw [bruteOrder, hsr, if_neg (by omega)]
  · intro hnone
    obtain ⟨i1, i2, i3, i4⟩ := bruteOrderLoop_spec a N N 1 (le_refl 1) hN1 (by omega)
    have : bruteOrderLoop a N N 1 = N := by
      by_contra hc
      have hlt : bruteOrderLoop a N N 1 < N := lt_of_le_of_ne i2 hc
      rcases i3 with hi | hi
      · exact hnone _ i1 hlt hi
      · exact hc hi
    rw [bruteOrder, if_pos this]

/-- C4 witness: the characterization applied at a = 2, N = 7, giving the
    order 3 of 2 modulo 7. -/
theorem brute_force_order_correct_witness : bruteOrder 2 7 = some 3 :=
  ((brute_force_order_correct 2 7 (by norm_num)).2.1 3).mpr (by decide)

/-- The trial-division loop never rejects a prime: any divisor it finds
    would be a proper divisor in [2, sqrt n]. -/
theorem isPrimeLoop_of_prime (n : ℕ) (hn : Nat.Prime n) :
    ∀ (fuel i : ℕ), 2 ≤ i → isPrimeLoop n fuel i = true := by
  intro fuel
  induction fuel with
  | zero => intro i hi; rfl
  | succ fuel ih =>
    intro i hi
    rw [isPrimeLoop]
    split
    · rename_i hii
      split
      · rename_i hdvd
        exfalso
        rw [Bool.or_eq_true, decide_eq_true_eq, decide_eq_true_eq] at hdvd
        rcases hdvd with hd | hd
        · rcases hn.eq_one_or_self_of_dvd i (Nat.dvd_of_mod_eq_zero hd) with h1 | h1
          · omega
          · subst h1
            have := Nat.mul_le_mul_right i hi
            omega
        · rcases hn.eq_one_or_self_of_dvd (i + 2) (Nat.dvd_of_mod_eq_zero hd) with h1 | h1
          · omega
          · have hi2 : i = 2 := by
              by_contra hc
              have h3 : 3 ≤ i := by omega
              have := Nat.mul_le_mul_right i h3
              omega
            rw [hi2] at h1
            rw [← h1] at hn
            exact absurd hn (by norm_num)
      · exact ih (i + 6) (by omega)
    · rfl

/-- The source primality test accepts every prime. -/
theorem is_prime_of_prime (n : ℕ) (hn : Nat.Prime n) : is_prime n = true := by
  have h2 := hn.two_le
  rw [is_prime, if_neg (by omega)]
  by_cases h3 : n ≤ 3
  · rw [if_pos h3]
  · have hne2 : ¬ n % 2 = 0 := by
      intro h
      rcases hn.eq_one_or_self_of_dvd 2 (Nat.dvd_of_mod_eq_zero h) with h1 | h1 <;> omega
    have hne3 : ¬ n % 3 = 0 := by
      intro h
      rcases hn.eq_one_or_self_of_dvd 3 (Nat.dvd_of_mod_eq_zero h) with h1 | h1 <;> omega
    rw [if_neg h3, if_neg (by simp [hne2, hne3])]
    exact isPrimeLoop_of_prime n hn n 5 (by omega)

/-- C6 (amended): for every odd prime N, shor_factor reports failure with
    zero oracle invocations, whatever bases and phases the attempt stream
    would supply. -/
theorem shor_factor_prime_no_oracle (N : ℕ) (att : ℕ → ℕ × ℚ)
    (hp : Nat.Prime N) (h2 : 2 < N) : shor_factor_run N att = (none, 0) := by
  have hodd : ¬ N % 2 = 0 := by
    intro h
    rcases hp.eq_one_or_self_of_dvd 2 (Nat.dvd_of_mod_eq_zero h) with h1 | h1 <;> omega
  rw [shor_factor_run, if_neg hodd, if_pos (is_prime_of_prime N hp)]

/-- C6 counterexample: N = 2 is prime, yet shor_factor does not report
    "cannot factor": the even shortcut fires first and returns (2, 1). -/
theorem shor_factor_two_returns_pair :
    Nat.Prime 2 ∧ shor_factor 2 (fun _ => (2, 0)) = some (2, 1) :=
  ⟨by norm_num, by decide⟩

/-- C6 witness: the amended theorem applied at the odd prime 5. -/
theorem shor_factor_prime_no_oracle_witness :
    shor_factor_run 5 (fun _ => (2, 0)) = (none, 0) :=
  shor_factor_prime_no_oracle 5 (fun _ => (2, 0)) (by norm_num) (by norm_num)

/-- C7: the orchestrator performs no input validation: for N = 0 it does not
    reject the input but returns the pair (2, 0) from the even shortcut, for
    every attempt stream. -/
theorem shor_factor_zero_not_rejected :
    ∀ att, shor_factor 0 att = some (2, 0) := by
  intro att
  rw [shor_factor, shor_factor_run, if_pos (by norm_num)]

/-- Any factor pair produced inside the attempt loop is a non-trivial
    divisor pair of N, provided every drawn base lies in [2, N). -/
theorem shorAttempts_factor (N : ℕ) (att : ℕ → ℕ × ℚ) (hN : 3 ≤ N)
    (hatt : ∀ i, 2 ≤ (att i).1 ∧ (att i).1 < N) :
    ∀ (rem i f g : ℕ), (shorAttempts N att i rem).1 = some (f, g) →
      f * g = N ∧ 1 < f ∧ f < N := by
  intro rem
  induction rem with
  | zero =>
    intro i f g h
    exact absurd h (by simp [shorAttempts])
  | succ rem ih =>
    intro i f g h
    rw [shorAttempts] at h
    split at h
    · rename_i hd
      simp only [Option.some.injEq, Prod.mk.injEq] at h
      obtain ⟨rfl, rfl⟩ := h
      have hdvd : gcd (att i).1 N ∣ N := by
        rw [gcd_eq]; exact Nat.gcd_dvd_right _ _
      have hlt : gcd (att i).1 N < N := by
        have h1 : gcd (att i).1 N ∣ (att i).1 := by
          rw [gcd_eq]; exact Nat.gcd_dvd_left _ _
        have h2 := (hatt i).1
        have h3 := (hatt i).2
        have := Nat.le_of_dvd (by omega) h1
        omega
      exact ⟨Nat.mul_div_cancel' hdvd, hd, hlt⟩
    · split at h
      · simp only [Prod.fst] at h
        exact ih (i + 1) f g h
      · rename_i r
        split at h
        · simp only [Prod.fst] at h
          exact ih (i + 1) f g h
        · simp only [] at h
          split at h
          · simp only [Prod.fst] at h
            exact ih (i + 1) f g h
          · split at h
            · rename_i hg1
              simp only [Option.some.injEq, Prod.mk.injEq] at h
              obtain ⟨rfl, rfl⟩ := h
              refine ⟨Nat.mul_div_cancel' ?_, hg1.1, hg1.2⟩
              rw [gcd_eq]
              exact Nat.gcd_dvd_right _ _
            · split at h
              · rename_i hg2
                simp only [Option.some.injEq, Prod.mk.injEq] at h
                obtain ⟨rfl, rfl⟩ := h
                refine ⟨Nat.mul_div_cancel' ?_, hg2.1, hg2.2⟩
                rw [gcd_eq]
                exact Nat.gcd_dvd_right _ _
              · simp only [Prod.fst] at h
                exact ih (i + 1) f g h

/-- C3 (amended): for every N >= 3, any factor pair (f, g) returned by
    shor_factor on a stream of valid random bases satisfies f * g = N and
    1 < f < N; at N = 2 the even shortcut instead returns the pair (2, 1)
    whose second component is trivial. -/
theorem shor_factor_factors_valid (N : ℕ) (att : ℕ → ℕ × ℚ) (f g : ℕ)
    (hN : 3 ≤ N) (hatt : ∀ i, 2 ≤ (att i).1 ∧ (att i).1 < N)
    (h : shor_factor N att = some (f, g)) : f * g = N ∧ 1 < f ∧ f < N := by
  rw [shor_factor, shor_factor_run] at h
  split at h
  · rename_i heven
    simp only [Option.some.injEq, Prod.mk.injEq] at h
    obtain ⟨rfl, rfl⟩ := h
    have h4 : 4 ≤ N := by omega
    exact ⟨Nat.mul_div_cancel' (Nat.dvd_of_mod_eq_zero heven), by norm_num, by omega⟩
  · split at h
    · exact absurd h (by simp)
    · exact shorAttempts_factor N att hN hatt 5 0 f g h

/-- C3 counterexample: at N = 2 the orchestrator returns the pair (2, 1),
    whose first component is not strictly below N, refuting the claim as
    stated for every N >= 2. -/
theorem shor_factor_two_pair_trivial :
    shor_factor 2 (fun _ => (2, 0)) = some (2, 1) ∧ ¬ (2 < 2) := by decide

/-- C3 witness: the amended theorem applied at N = 15 with the base 3 drawn
    on every attempt, where the gcd shortcut returns (3, 5). -/
theorem shor_factor_factors_valid_witness : 3 * 5 = 15 ∧ 1 < 3 ∧ 3 < 15 :=
  shor_factor_factors_valid 15 (fun _ => (3, 0)) 3 5 (by norm_num)
    (fun i => by norm_num) (by decide)

/-- When the denominator of x already satisfies the bound, the rational
    approximation is x itself. -/
theorem continued_fraction_den_le (x : ℚ) (maxd : ℕ) (h : x.den ≤ maxd) :
    continued_fraction x maxd = (x.num, x.den) := by
  unfold continued_fraction limit_denominator
  rw [if_pos h]

/-- Python round is the identity on integers. -/
theorem pyRound_intCast (n : ℤ) : pyRound (n : ℚ) = n := by
  rw [pyRound]
  rw [Int.floor_intCast]
  rw [if_pos (by norm_num)]

/-- The approximation of phase 0 has denominator 1 for every bound. -/
theorem continued_fraction_zero_den (maxd : ℕ) : (continued_fraction 0 maxd).2 = 1 := by
  cases maxd with
  | zero => decide
  | succ m =>
    rw [continued_fraction_den_le 0 (m + 1) (by norm_num)]
    rfl

/-- Characterization of get_order_from_phase shared by several claims. -/
theorem get_order_some_iff (phase : ℚ) (N maxd q : ℕ) :
    get_order_from_phase phase N maxd = some q ↔
      (q = (continued_fraction phase maxd).2 ∧ 2 ≤ q ∧
       pyRound (phase * (q : ℚ)) ^ q % (N : ℤ) = 1) := by
  constructor
  · intro h
    rw [get_order_from_phase] at h
    split at h
    · rename_i hc
      simp only [Option.some.injEq] at h
      subst h
      exact ⟨rfl, hc.1, hc.2⟩
    · exact absurd h (by simp)
  · rintro ⟨rfl, h2, h3⟩
    rw [get_order_from_phase]
    exact if_pos ⟨h2, h3⟩

/-- C8: get_order_from_phase returns q exactly when q is the denominator of
    the rational approximation, q >= 2 and round(phase * q) ^ q mod N = 1;
    otherwise it returns None; in particular phase 0 yields None and a
    spurious order below 2 is never returned. -/
theorem get_order_from_phase_iff :
    (∀ (phase : ℚ) (N maxd q : ℕ), get_order_from_phase phase N maxd = some q ↔
      (q = (continued_fraction phase maxd).2 ∧ 2 ≤ q ∧
       pyRound (phase * (q : ℚ)) ^ q % (N : ℤ) = 1)) ∧
    (∀ N maxd, get_order_from_phase 0 N maxd = none) ∧
    (∀ (phase : ℚ) (N maxd q : ℕ), get_order_from_phase phase N maxd = some q → 2 ≤ q) := by
  refine ⟨get_order_some_iff, ?_, ?_⟩
  · intro N maxd
    rw [get_order_from_phase]
    rw [if_neg]
    intro hc
    have := continued_fraction_zero_den maxd
    omega
  · intro phase N maxd q h
    exact (((get_order_some_iff phase N maxd q).mp h).2).1

/-- C8 witness: the characterization applied at phase 1/4, N equal to 15 and
    bound 10, accepting the order 4. -/
theorem get_order_from_phase_iff_witness :
    get_order_from_phase (mkRat 1 4) 15 10 = some 4 :=
  (get_order_from_phase_iff.1 (mkRat 1 4) 15 10 4).mpr (by decide)

/-- C9: for every q in [2, max_denominator] and N >= 2, the phase 1/q is
    accepted with order q, since the rounded numerator is 1 and 1 ^ q mod N
    is vacuously 1; in particular phase 1/10 with N = 15 yields order 10
    although no residue modulo 15 has brute-force order 10. -/
theorem get_order_from_phase_unit_fraction :
    (∀ (q N maxd : ℕ), 2 ≤ q → q ≤ maxd → 2 ≤ N →
      get_order_from_phase (mkRat 1 q) N maxd = some q) ∧
    get_order_from_phase (mkRat 1 10) 15 10 = some 10 ∧
    (∀ a, a < 15 → bruteOrder a 15 ≠ some 10) := by
  refine ⟨?_, by decide, by decide⟩
  intro q N maxd h2 hle hN
  have hq0 : 0 < (q : ℤ) := by exact_mod_cast (by omega : 0 < q)
  have hcop : Nat.Coprime (1 : ℤ).natAbs (q : ℤ).natAbs := by
    simp [Nat.Coprime]
  have hden : (mkRat 1 q).den = q := by
    rw [Rat.mkRat_eq_div]
    have h := Rat.den_div_eq_of_coprime hq0 hcop
    have : (((1 : ℤ) : ℚ) / ((q : ℤ) : ℚ)).den = q := by exact_mod_cast h
    simpa using this
  have hnum : (mkRat 1 q).num = 1 := by
    rw [Rat.mkRat_eq_div]
    have h := Rat.num_div_eq_of_coprime hq0 hcop
    have : (((1 : ℤ) : ℚ) / ((q : ℤ) : ℚ)).num = 1 := by exact_mod_cast h
    simpa using this
  have hcf : continued_fraction (mkRat 1 q) maxd = (1, q) := by
    rw [continued_fraction_den_le _ _ (by omega : (mkRat 1 q).den ≤ maxd), hnum, hden]
  have hmul : (mkRat 1 q) * (q : ℚ) = 1 := by
    rw [Rat.mkRat_eq_div]
    have hq : ((q : ℚ)) ≠ 0 := by
      exact_mod_cast (by omega : q ≠ 0)
    field_simp
  rw [get_order_from_phase]
  simp only [hcf]
  rw [if_pos]
  refine ⟨h2, ?_⟩
  rw [hmul]
  have h1 : pyRound 1 = 1 := by
    have := pyRound_intCast 1
    simpa using this
  rw [h1, one_pow]
  exact Int.emod_eq_of_lt (by norm_num) (by exact_mod_cast (by omega : 1 < N))

/-- C9 witness: the theorem applied at q = 4, N = 15, bound 100. -/
theorem get_order_from_phase_unit_fraction_witness :
    get_order_from_phase (mkRat 1 4) 15 100 = some 4 :=
  get_order_from_phase_unit_fraction.1 4 15 100 (by norm_num) (by norm_num) (by norm_num)

/-- The register size computed for the unitary-gate path is at most 4 for
    every N in [8, 15]. -/
theorem ceilLog2_le_four (N : ℕ) (h8 : 8 ≤ N) (h15 : N ≤ 15) : ceilLog2 N ≤ 4 := by
  interval_cases N <;> decide

/-- Pigeonhole: the list of powers a ^ x mod N over x < d cannot be
    duplicate-free when d exceeds N. -/
theorem not_nodup_pow_mod (a N d : ℕ) (hN : 0 < N) (hd : N < d) :
    ¬ ((List.range d).map (fun x => a ^ x % N)).Nodup := by
  intro hnod
  have hinj := List.inj_on_of_nodup_map hnod
  have hmaps : ∀ x ∈ Finset.range d, a ^ x % N ∈ Finset.range N := by
    intro x hx
    exact Finset.mem_range.mpr (Nat.mod_lt _ hN)
  have hinjOn : Set.InjOn (fun x => a ^ x % N) (Finset.range d) := by
    intro x hx y hy hxy
    have hx2 : x ∈ List.range d := List.mem_range.mpr (by simpa using hx)
    have hy2 : y ∈ List.range d := List.mem_range.mpr (by simpa using hy)
    exact hinj hx2 hy2 hxy
  have := Finset.card_le_card_of_injOn _ hmaps hinjOn
  simp only [Finset.card_range] at this
  omega

/-- The unitary modular-exponentiation gate of src/shor/quantum.py always
    raises for 8 <= N <= 15: either a is not coprime to N, or the mapping
    x ↦ a ^ x mod N repeats a value on the 2 ^ n inputs. -/
theorem modexpGateRaises_true (a N : ℕ) (h8 : 8 ≤ N) (h15 : N ≤ 15) :
    modexpGateRaises a N (ceilLog2 N) = true := by
  rw [modexpGateRaises]
  by_cases hg : gcd a N = 1
  · rw [Bool.or_eq_true]
    right
    rw [decide_eq_true_eq]
    by_cases hN8 : N = 8
    · subst hN8
      have hn : ceilLog2 8 = 3 := by decide
      rw [hn]
      have hodd : a % 2 = 1 := by
        rw [gcd_eq] at hg
        rcases Nat.even_or_odd a with he | ho
        · exfalso
          obtain ⟨c, hc⟩ := he
          have h2 : 2 ∣ a := ⟨c, by omega⟩
          have : 2 ∣ Nat.gcd a 8 := Nat.dvd_gcd h2 (by norm_num)
          omega
        · exact Nat.odd_iff.mp ho
      have hsq : a ^ 2 % 8 = 1 := by
        rw [Nat.pow_mod]
        have hb1 : a % 8 % 2 = 1 := by
          rw [Nat.mod_mod_of_dvd a (by norm_num : 2 ∣ 8)]
          exact hodd
        have hb8 : a % 8 < 8 := Nat.mod_lt _ (by norm_num)
        have hcases : a % 8 = 1 ∨ a % 8 = 3 ∨ a % 8 = 5 ∨ a % 8 = 7 := by omega
        rcases hcases with hb | hb | hb | hb <;> rw [hb] <;> decide
      intro hnod
      have hinj := List.inj_on_of_nodup_map hnod
      have h0 : (0 : ℕ) ∈ List.range (2 ^ 3) := List.mem_range.mpr (by norm_num)
      have h2m : (2 : ℕ) ∈ List.range (2 ^ 3) := List.mem_range.mpr (by norm_num)
      have : (0 : ℕ) = 2 := hinj h0 h2m (by simpa using hsq.symm)
      omega
    · have hdim : 2 ^ ceilLog2 N = 16 := by
        interval_cases N <;> first | omega | decide
      rw [hdim]
      exact not_nodup_pow_mod a N 16 (by omega) (by omega)
  · rw [Bool.or_eq_true]
    left
    rw [decide_eq_true_eq]
    exact hg

/-- C2 (amended): an order r accepted by the orchestrator (returned by the
    oracle and even) satisfies a ^ r mod N = 1 whenever the oracle resolved
    it through the classical brute-force path, i.e. for every N outside
    [16, 60] (for 8 <= N <= 15 the unitary-gate construction always raises
    and falls back to brute force); for 16 <= N <= 60 the recovery step only
    guarantees r >= 2 and round(phase * r) ^ r mod N = 1, which does not
    imply a ^ r mod N = 1. -/
theorem accepted_order_properties (a N : ℕ) (phase : ℚ) (r : ℕ) (hN : 2 ≤ N)
    (hq : quantum_order_finding a N phase = some r) (hev : r % 2 = 0) :
    (¬ (16 ≤ N ∧ N ≤ 60) → a ^ r % N = 1) ∧
    ((16 ≤ N ∧ N ≤ 60) → 2 ≤ r ∧ pyRound (phase * (r : ℚ)) ^ r % (N : ℤ) = 1) := by
  constructor
  · intro hrange
    rw [quantum_order_finding] at hq
    by_cases h8 : N < 8
    · rw [if_pos h8] at hq
      exact (bruteOrder_some a N (by omega) r hq).2.2.1
    · rw [if_neg h8] at hq
      by_cases h15 : N ≤ 15
      · have hc4 : ceilLog2 N ≤ 4 := ceilLog2_le_four N (by omega) h15
        rw [if_pos ⟨h15, hc4⟩] at hq
        rw [if_pos (modexpGateRaises_true a N (by omega) h15)] at hq
        exact (bruteOrder_some a N (by omega) r hq).2.2.1
      · have h60 : ¬ N ≤ 60 := by omega
        rw [if_neg (fun hc => h15 hc.1), if_neg h60] at hq
        exact (bruteOrder_some a N (by omega) r hq).2.2.1
  · intro hrange
    rw [quantum_order_finding] at hq
    rw [if_neg (by omega)] at hq
    rw [if_neg (fun hc => by omega)] at hq
    rw [if_pos hrange.2] at hq
    have h := (get_order_some_iff phase N 1000 r).mp hq
    exact ⟨h.2.1, h.2.2⟩

/-- C2 counterexample: with N = 21, base 2 and measured phase 1/2, the
    oracle returns the even order 2, the orchestrator accepts it and uses it
    in the difference-of-squares step (returning the factor pair (3, 7)),
    yet 2 ^ 2 mod 21 = 4 is not 1: the claimed invariant fails. -/
theorem accepted_order_pow_ne_one :
    quantum_order_finding 2 21 (mkRat 1 2) = some 2 ∧ (2 : ℕ) % 2 = 0 ∧
    2 ^ 2 % 21 ≠ 1 ∧ shor_factor 21 (fun _ => (2, mkRat 1 2)) = some (3, 7) := by
  decide

/-- C2 witness: the amended theorem applied on the brute-force path at
    a = 2, N = 99, where the accepted order 30 satisfies 2 ^ 30 mod 99 = 1. -/
theorem accepted_order_properties_witness : 2 ^ 30 % 99 = 1 :=
  (accepted_order_properties 2 99 0 30 (by norm_num) (by decide) (by norm_num)).1
    (by omega)

/-- Both convergent denominators held by the limit_denominator loop stay
    within the bound. -/
theorem limitDenLoop_le (maxd : ℕ) :
    ∀ (fuel p0 q0 p1 q1 n d : ℕ), q0 ≤ maxd → q1 ≤ maxd →
      (limitDenLoop maxd fuel (p0, q0, p1, q1) n d).2.1 ≤ maxd ∧
      (limitDenLoop maxd fuel (p0, q0, p1, q1) n d).2.2.2 ≤ maxd := by
  intro fuel
  induction fuel with
  | zero =>
    intro p0 q0 p1 q1 n d h0 h1
    rw [limitDenLoop]
    exact ⟨h0, h1⟩
  | succ fuel ih =>
    intro p0 q0 p1 q1 n d h0 h1
    rw [limitDenLoop]
    split
    · exact ⟨h0, h1⟩
    · split
      · exact ⟨h0, h1⟩
      · rename_i hq2
        exact ih p1 q1 (p0 + n / d * p1) (q0 + n / d * q1) d (n % d) h1 (by omega)

/-- The denominator of a quotient of naturals is bounded by any bound on the
    divisor, division by zero giving denominator 1. -/
theorem nat_div_den_le (p q maxd : ℕ) (hq : q ≤ maxd) (hmaxd : 1 ≤ maxd) :
    ((p : ℚ) / (q : ℚ)).den ≤ maxd := by
  rcases Nat.eq_zero_or_pos q with h0 | hpos
  · subst h0
    simpa using hmaxd
  · have hdvd0 := Rat.den_dvd (p : ℤ) (q : ℤ)
    rw [Rat.divInt_eq_div, Int.cast_natCast, Int.cast_natCast] at hdvd0
    have hle0 : ((((p : ℚ) / (q : ℚ)).den : ℤ)) ≤ (q : ℤ) :=
      Int.le_of_dvd (by exact_mod_cast hpos) hdvd0
    have hle : ((p : ℚ) / (q : ℚ)).den ≤ q := by exact_mod_cast hle0
    omega

/-- C1 counterexample: at x = 3/7 with bound 5 the code returns the
    semiconvergent (2, 5), not the continued-fraction convergent with the
    largest denominator within the bound, which is (1, 2); the code picked
    the fraction strictly closer to x. -/
theorem continued_fraction_not_convergent :
    continued_fraction (mkRat 3 7) 5 = (2, 5) ∧
    specConvergent (mkRat 3 7) 5 = some (1, 2) ∧
    ((2 : ℤ), (5 : ℕ)) ≠ ((1 : ℤ), (2 : ℕ)) ∧
    |mkRat 3 7 - mkRat 2 5| < |mkRat 3 7 - mkRat 1 2| := by decide

/-- C1 (amended): best_rational_approximation returns the output of
    Fraction.limit_denominator: a fraction whose denominator never exceeds
    max_denominator, equal to x itself whenever the exact denominator of x
    already fits the bound, but in general a closest fraction rather than a
    convergent of the continued-fraction expansion; on the three concrete
    inputs it returns (1, 3), (1, 2) and (1, 7). -/
theorem continued_fraction_spec :
    (∀ (x : ℚ) (maxd : ℕ), 1 ≤ maxd → (continued_fraction x maxd).2 ≤ maxd) ∧
    (∀ (x : ℚ) (maxd : ℕ), x.den ≤ maxd → continued_fraction x maxd = (x.num, x.den)) ∧
    continued_fraction (mkRat 1 3) 100 = (1, 3) ∧
    continued_fraction (mkRat 1 2) 100 = (1, 2) ∧
    continued_fraction (mkRat 1 7) 100 = (1, 7) := by
  refine ⟨?_, continued_fraction_den_le, by decide, by decide, by decide⟩
  intro x maxd h1
  show (limit_denominator x maxd).den ≤ maxd
  rw [limit_denominator]
  split
  · rename_i h
    exact h
  · have hb := limitDenLoop_le maxd (x.den + 1) 0 1 1 0 x.num.toNat x.den h1 (by omega)
    simp only []
    split
    · exact nat_div_den_le _ _ _ hb.2 h1
    · refine nat_div_den_le _ _ _ ?_ h1
      rcases Nat.eq_zero_or_pos
        (limitDenLoop maxd (x.den + 1) (0, 1, 1, 0) x.num.toNat x.den).2.2.2 with hz | hpos
      · rw [hz]
        simpa using hb.1
      · have hmul : (maxd - (limitDenLoop maxd (x.den + 1) (0, 1, 1, 0) x.num.toNat x.den).2.1) /
            (limitDenLoop maxd (x.den + 1) (0, 1, 1, 0) x.num.toNat x.den).2.2.2 *
            (limitDenLoop maxd (x.den + 1) (0, 1, 1, 0) x.num.toNat x.den).2.2.2 ≤
            maxd - (limitDenLoop maxd (x.den + 1) (0, 1, 1, 0) x.num.toNat x.den).2.1 :=
          Nat.div_mul_le_self _ _
        have h0 := hb.1
        omega

/-- C1 witness: the amended theorem applied at x = 3/7 with bound 5 and at
    x = 1/3 with bound 100. -/
theorem continued_fraction_spec_witness :
    (continued_fraction (mkRat 3 7) 5).2 ≤ 5 ∧
    continued_fraction (mkRat 1 3) 100 = (1, 3) :=
  ⟨continued_fraction_spec.1 (mkRat 3 7) 5 (by norm_num), continued_fraction_spec.2.2.1⟩

end

end VibeShor
